import Mathlib

/-!
Verification of the health-metrics API (src/app.py) against its
natural-language specification.

The development shallowly embeds the decision logic of the program:
the latest-file selector, the CSV column mapper and normalizer, the
value coercion, the dashboard renderer, and the API-key guard.
Machine floats of the source are modelled by exact rationals; the
external collaborators (Google Drive listing and download, the pandas
CSV reader and its date parser, the Flask plumbing) appear only as
already-parsed inputs, as described at each definition.
-/

namespace HealthApi

/-! ### Calendar dates

Python `datetime.date(y, m, d)` accepts exactly the proleptic Gregorian
dates; the constructor raises ValueError otherwise.  The regex in
app.py only ever produces years 2000..2099, inside Python's 1..9999
range, so the year-range check is not modelled separately.  A date is
encoded as the natural number y*10000 + m*100 + d, whose order agrees
with the lexicographic order on (y, m, d) (months and days are below
100) and hence with the order of Python `datetime.date` and of its
ISO string form. -/

def isLeapYear (y : Nat) : Bool := (y % 4 == 0 && y % 100 != 0) || y % 400 == 0

def daysInMonth (y m : Nat) : Nat :=
  if m = 2 then (if isLeapYear y then 29 else 28)
  else if m = 4 || m = 6 || m = 9 || m = 11 then 30 else 31

def validDate (y m d : Nat) : Bool :=
  decide (1 ≤ m) && decide (m ≤ 12) && decide (1 ≤ d) && decide (d ≤ daysInMonth y m)

def encodeDate (y m d : Nat) : Nat := y * 10000 + m * 100 + d

/-- dateMinKey encodes `datetime.date.min`, which is 0001-01-01. -/
def dateMinKey : Nat := encodeDate 1 1 1

/-! ### The filename date regex

app.py line 55: `_DATE_IN_NAME = re.compile(r"(20\d\d)[-_]?(\d\d)[-_]?(\d\d)")`
(the source writes the repetitions as `\d{2}`).  `search` finds the
leftmost position where the pattern matches.  The optional separator
`[-_]?` is greedy, but backtracking over it is vacuous: if the next
character is a separator, the non-consuming alternative places `\d\d`
on that separator character, which is not a digit and fails.  So the
separator is consumed exactly when present, which `dropSep` does. -/

def digitVal (c : Char) : Nat := c.toNat - 48

def twoDigits : List Char → Option (Nat × List Char)
  | a :: b :: rest =>
    if a.isDigit && b.isDigit then some (10 * digitVal a + digitVal b, rest) else none
  | _ => none

def sepChar (c : Char) : Bool := c = '-' || c = '_'

def dropSep : List Char → List Char
  | [] => []
  | c :: rest => if sepChar c then rest else c :: rest

/-- matchDateAt tries to match the whole pattern starting at the head of `l`,
returning the three captured numbers. -/
def matchDateAt : List Char → Option (Nat × Nat × Nat)
  | c1 :: c2 :: a :: b :: rest =>
    if c1 = '2' && c2 = '0' && a.isDigit && b.isDigit then
      match twoDigits (dropSep rest) with
      | none => none
      | some (m, r2) =>
        match twoDigits (dropSep r2) with
        | none => none
        | some (d, _) => some (2000 + 10 * digitVal a + digitVal b, m, d)
    else none
  | _ => none

/-- searchDateInName models `re.search`: the match at the leftmost position wins. -/
def searchDateInName : List Char → Option (Nat × Nat × Nat)
  | [] => none
  | c :: rest =>
    match matchDateAt (c :: rest) with
    | some r => some r
    | none => searchDateInName rest

/-- Embedding of `_parse_date_from_name` (app.py lines 57-65), returning the
encoded date key.  No regex match, or captured numbers that do not form a
real calendar date, yield `datetime.date.min`. -/
def _parse_date_from_name (name : String) : Nat :=
  match searchDateInName name.data with
  | none => dateMinKey
  | some (y, m, d) => if validDate y m d then encodeDate y m d else dateMinKey

/-! ### Latest-file selection

One entry of the Drive listing.  `modifiedKey` holds the result of
`_parse_iso_dt(f.get("modifiedTime", ""))` (app.py lines 67-71): that
function is total (it substitutes `datetime.min` on any parse failure)
and produces values from a totally ordered set, which we embed into Nat
since only comparisons of these values are ever used. -/
structure CandidateFile where
  id : String
  name : String
  modifiedKey : Nat
deriving DecidableEq

/-- Embedding of the local `sort_key` (app.py lines 94-97). -/
def sort_key (f : CandidateFile) : Nat × Nat := (_parse_date_from_name f.name, f.modifiedKey)

/-- pairLe is the lexicographic order on pairs used by Python tuple comparison. -/
def pairLe (a b : Nat × Nat) : Bool :=
  decide (a.1 < b.1) || (decide (a.1 = b.1) && decide (a.2 ≤ b.2))

/-- fileDesc f g holds when f may come before g in the descending sort:
`files.sort(key=sort_key, reverse=True)` is a stable descending sort.  A
stable sort of a total preorder is unique, so the stable `insertionSort`
with this relation is that sort. -/
def fileDesc (f g : CandidateFile) : Prop := pairLe (sort_key g) (sort_key f) = true

instance : DecidableRel fileDesc := fun f g => instDecidableEqBool (pairLe (sort_key g) (sort_key f)) true

instance : IsTotal CandidateFile fileDesc where
  total f g := by
    unfold fileDesc pairLe
    simp only [Bool.or_eq_true, Bool.and_eq_true, decide_eq_true_eq]
    omega

instance : IsTrans CandidateFile fileDesc where
  trans f g k := by
    unfold fileDesc pairLe
    simp only [Bool.or_eq_true, Bool.and_eq_true, decide_eq_true_eq]
    omega

/-- Embedding of the selection part of `download_latest_csv_from_drive_with_meta`
(app.py lines 90-100): an empty listing raises FileNotFoundError, otherwise
the files are sorted descending by (name-date, modifiedTime) and the first
element is taken. -/
def select_latest (files : List CandidateFile) : Except String CandidateFile :=
  match files.insertionSort fileDesc with
  | [] => .error ("指定フォルダにCSVが見つかりません。")
  | f :: _ => .ok f

/-! ### Column resolution

`_colmap` (app.py lines 119-141).  `lower_map = {c.lower(): c for c in
columns}` is a Python dict: keys keep their first-insertion position,
a duplicate key overwrites the stored value in place.  We model the
dict as an association list with exactly that insertion discipline.
`str.lower` is modelled per-character; this agrees with Python on the
ASCII letters and leaves the Japanese column labels unchanged. -/

def lowerStr (s : String) : String := String.mk (s.data.map Char.toLower)

def dictInsert (m : List (String × String)) (k v : String) : List (String × String) :=
  match m with
  | [] => [(k, v)]
  | (k0, v0) :: rest => if k0 = k then (k0, v) :: rest else (k0, v0) :: dictInsert rest k v

def lowerMapOf (columns : List String) : List (String × String) :=
  columns.foldl (fun m c => dictInsert m (lowerStr c) c) []

def dictFind? (m : List (String × String)) (k : String) : Option String :=
  (m.find? (fun p => p.1 = k)).map (fun p => p.2)

/-- chop p s returns the rest of s after removing the leading run p, when
s starts with p. -/
def chop : List Char → List Char → Option (List Char)
  | [], s => some s
  | _ :: _, [] => none
  | a :: ps, b :: ss => if a = b then chop ps ss else none

/-- isPre p s: p is a leading run of s. -/
def isPre (p s : List Char) : Bool := (chop p s).isSome

/-- hasSub p s models the Python substring test `p in s`. -/
def hasSub (p : List Char) : List Char → Bool
  | [] => isPre p []
  | c :: t => isPre p (c :: t) || hasSub p t

def strHasSub (hay needle : String) : Bool := hasSub needle.data hay.data

/-- Embedding of the inner `pick` of `_colmap` (app.py lines 122-132): a full
exact case-insensitive pass over the alias list, then a substring pass,
alias-major, over the dict in insertion order; no match yields the empty
string. -/
def pick (lowerMap : List (String × String)) (cands : List String) : String :=
  match cands.findSome? (fun k => dictFind? lowerMap k) with
  | some v => v
  | none =>
    match cands.findSome? (fun k =>
        (lowerMap.find? (fun p => hasSub k.data p.1.data)).map (fun p => p.2)) with
    | some v => v
    | none => ""

structure ColMap where
  date : String
  steps : String
  sleep_hours : String
  active_energy_kcal : String
  resting_hr_bpm : String
  weight_kg : String
deriving DecidableEq

/-- Embedding of `_colmap` (app.py lines 119-141) with the alias lists of the
source. -/
def _colmap (columns : List String) : ColMap :=
  let lm := lowerMapOf columns
  { date := pick lm ["date", "day", "datetime", "start date", "start_date"]
    steps := pick lm ["steps", "step", "step_count"]
    sleep_hours := pick lm ["sleep_hours", "sleep hour", "sleep_duration", "sleep_duration_hours"]
    active_energy_kcal := pick lm ["active_energy_kcal", "move_kcal", "active energy", "active_kcal"]
    resting_hr_bpm := pick lm ["resting_hr_bpm", "resting heart", "resting_heart_rate", "rest hr", "restinghr"]
    weight_kg := pick lm ["weight_kg", "body mass", "weight"] }

/-! ### Exact rational values

Machine floats of the source are modelled by exact rationals.  `Frac`
is an unnormalized fraction with a positive denominator; keeping the
fraction unnormalized keeps every operation a plain integer computation.
The float special strings inf/nan and underscore-grouped literals
accepted by Python `float` are outside the model, as is its rejection
of numbers whose magnitude overflows a double. -/

structure Frac where
  num : Int
  den : Nat
  pos : 0 < den
deriving DecidableEq

def Frac.ofInt (n : Int) : Frac := ⟨n, 1, Nat.one_pos⟩

def Frac.ofNat (n : Nat) : Frac := ⟨n, 1, Nat.one_pos⟩

def Frac.add (a b : Frac) : Frac :=
  ⟨a.num * b.den + b.num * a.den, a.den * b.den, Nat.mul_pos a.pos b.pos⟩

/-- Frac.lt is the order of the rationals the fractions denote. -/
def Frac.lt (a b : Frac) : Prop := a.num * b.den < b.num * a.den

instance : DecidableRel Frac.lt := fun a b => Int.decLt (a.num * b.den) (b.num * a.den)

def Frac.le (a b : Frac) : Prop := a.num * b.den ≤ b.num * a.den

instance : DecidableRel Frac.le := fun a b => Int.decLe (a.num * b.den) (b.num * a.den)

/-- Frac.roundHalfEven is Python `round(x)`: the nearest integer, ties to
the even one (on the exact rational; float ties behave the same whenever
the float is the same rational, which every claim input is). -/
def Frac.roundHalfEven (a : Frac) : Int :=
  let f := a.num.fdiv a.den
  let r := a.num - f * a.den
  if 2 * r < a.den then f
  else if (a.den : Int) < 2 * r then f + 1
  else if f % 2 = 0 then f else f + 1

/-- Frac.divPos divides by a positive natural (only used for the mean of a
nonempty list). -/
def Frac.divPos (a : Frac) (n : Nat) (h : 0 < n) : Frac :=
  ⟨a.num, a.den * n, Nat.mul_pos a.pos h⟩

def Frac.mulTen (a : Frac) : Frac := ⟨a.num * 10, a.den, a.pos⟩

def Frac.neg (a : Frac) : Frac := ⟨-a.num, a.den, a.pos⟩

/-! ### Cell values and `_to_float`

A cell as handed over by pandas `row[col]`: Python None (or a missing
value), a float NaN (what pandas puts in empty numeric cells), a number,
or a string. -/

inductive Value where
  | none : Value
  | nan : Value
  | num : Frac → Value
  | str : String → Value
deriving DecidableEq

/-- pyStrip models Python `str.strip()` with no argument (here only ASCII
whitespace occurs). -/
def pyStrip (s : String) : String :=
  String.mk (((s.data.dropWhile Char.isWhitespace).reverse.dropWhile Char.isWhitespace).reverse)

/-- parseDigits consumes a leading digit run, returning its value, its length
and the rest. -/
def parseDigits : List Char → Nat → Nat → (Nat × Nat × List Char)
  | c :: rest, acc, n =>
    if c.isDigit then parseDigits rest (10 * acc + digitVal c) (n + 1) else (acc, n, c :: rest)
  | [], acc, n => (acc, n, [])

/-- parseExpo parses the optional exponent part `[eE][+-]?digits`; it must
consume the whole rest. -/
def parseExpo (l : List Char) : Option Int :=
  match l with
  | [] => some 0
  | e :: rest =>
    if e = 'e' || e = 'E' then
      let (sgn, rest2) :=
        match rest with
        | c :: r2 => if c = '+' then (1, r2) else if c = '-' then (-1, r2) else (1, c :: r2)
        | [] => ((1 : Int), [])
      match parseDigits rest2 0 0 with
      | (v, n, []) => if n = 0 then Option.none else some (sgn * v)
      | _ => Option.none
    else Option.none

/-- scalePow10 multiplies a fraction by the ten-power of the parsed
exponent. -/
def scalePow10 (a : Frac) : Int → Frac
  | Int.ofNat n => ⟨a.num * ((10 ^ n : Nat) : Int), a.den, a.pos⟩
  | Int.negSucc n => ⟨a.num, a.den * 10 ^ (n + 1),
      Nat.mul_pos a.pos (Nat.pow_pos (by omega))⟩

/-- parseBody parses `digits [. digits] [expo]` or `. digits [expo]`, i.e. the
Python float literal after the sign. -/
def parseBody (l : List Char) : Option Frac :=
  match parseDigits l 0 0 with
  | (ip, ipn, rest) =>
    match rest with
    | '.' :: rest2 =>
      match parseDigits rest2 0 0 with
      | (fp, fpn, rest3) =>
        if ipn = 0 && fpn = 0 then Option.none
        else
          match parseExpo rest3 with
          | Option.none => Option.none
          | some ex =>
            some (scalePow10 ⟨(ip * 10 ^ fpn + fp : Nat), 10 ^ fpn,
              Nat.pow_pos (by omega)⟩ ex)
    | _ =>
      if ipn = 0 then Option.none
      else
        match parseExpo rest with
        | Option.none => Option.none
        | some ex => some (scalePow10 (Frac.ofNat ip) ex)

/-- pyFloat? models Python `float(s)` on decimal literals: optional
whitespace, optional sign, then the literal body, which must reach the end
of the string. -/
def pyFloat? (s : String) : Option Frac :=
  match (pyStrip s).data with
  | '+' :: rest => parseBody rest
  | '-' :: rest => (parseBody rest).map Frac.neg
  | l => parseBody l

/-- Embedding of `_to_float` (app.py lines 143-153): None stays null, a float
NaN stays null, a blank or whitespace-only string stays null, a non-numeric
string fails `float` and its exception is swallowed into null, and a number
is kept as-is. -/
def _to_float (v : Value) : Option Frac :=
  match v with
  | .none => Option.none
  | .nan => Option.none
  | .num q => some q
  | .str s => if pyStrip s = "" then Option.none else pyFloat? s

/-! ### Normalization to the last seven records

The raw table is what `pd.read_csv` hands over: a header row and data
rows; a row is an association from column name to cell value.  A column
name that a row does not carry reads as None (in the program the
resolved columns always exist in the frame, since `_colmap` only
returns members of `df.columns`). -/

structure RawTable where
  columns : List String
  rows : List (List (String × Value))
deriving DecidableEq

def cell (row : List (String × Value)) (col : String) : Value :=
  match row.find? (fun p => p.1 = col) with
  | some p => p.2
  | Option.none => Value.none

/-- pdToDate models `pd.to_datetime(x, errors="coerce").dt.date` on one cell,
restricted to ISO `YYYY-MM-DD` strings; every other input coerces to NaT
in this model (pandas accepts further formats, which no claim touches).
The result is the encoded date key. -/
def pdToDate (v : Value) : Option Nat :=
  match v with
  | .str s =>
    match s.data with
    | [y1, y2, y3, y4, s1, m1, m2, s2, d1, d2] =>
      if y1.isDigit && y2.isDigit && y3.isDigit && y4.isDigit && s1 = '-' &&
         m1.isDigit && m2.isDigit && s2 = '-' && d1.isDigit && d2.isDigit then
        let y := 1000 * digitVal y1 + 100 * digitVal y2 + 10 * digitVal y3 + digitVal y4
        let m := 10 * digitVal m1 + digitVal m2
        let d := 10 * digitVal d1 + digitVal d2
        if validDate y m d && decide (1 ≤ y) then some (encodeDate y m d) else Option.none
      else Option.none
    | _ => Option.none
  | _ => Option.none

/-- HealthRecord is one output record of `normalize_and_last_7`; the date is
kept encoded (its order is the order of the ISO strings the program sorts
by). -/
structure HealthRecord where
  date : Nat
  steps : Option Frac
  sleep_hours : Option Frac
  active_energy_kcal : Option Frac
  resting_hr_bpm : Option Frac
  weight_kg : Option Frac
deriving DecidableEq

/-- metricCell evaluates `_to_float(row[...])` guarded by
`col and col in df.columns` from `get_col` (app.py lines 164-166). -/
def metricCell (columns : List String) (col : String) (row : List (String × Value)) :
    Option Frac :=
  if col ≠ "" && columns.contains col then _to_float (cell row col) else Option.none

/-- recordsOf is the record list `out` built by the row loop of
`normalize_and_last_7` (app.py lines 174-187): rows whose date cell does not
parse are dropped, the metric cells of the others are coerced. -/
def recordsOf (t : RawTable) : List HealthRecord :=
  let cmap := _colmap t.columns
  t.rows.filterMap (fun row =>
    match pdToDate (cell row cmap.date) with
    | Option.none => Option.none
    | some d => some
      { date := d
        steps := metricCell t.columns cmap.steps row
        sleep_hours := metricCell t.columns cmap.sleep_hours row
        active_energy_kcal := metricCell t.columns cmap.active_energy_kcal row
        resting_hr_bpm := metricCell t.columns cmap.resting_hr_bpm row
        weight_kg := metricCell t.columns cmap.weight_kg row })

/-- dateLe is the ascending order on the date key the program sorts by:
`out.sort(key=lambda r: r["date"])` compares the ISO strings, whose order is
the order of the encoded keys. -/
def dateLe (a b : HealthRecord) : Prop := a.date ≤ b.date

instance : DecidableRel dateLe := fun a b => Nat.decLe a.date b.date

instance : IsTotal HealthRecord dateLe where
  total a b := Nat.le_total a.date b.date

instance : IsTrans HealthRecord dateLe where
  trans _ _ _ h1 h2 := Nat.le_trans h1 h2

/-- lastN n l is the Python slice l[-n:]. -/
def lastN (n : Nat) (l : List α) : List α := l.drop (l.length - n)

/-- Embedding of `normalize_and_last_7` (app.py lines 155-190): no resolvable
date column raises ValueError, otherwise the surviving records are sorted
ascending by date (`list.sort` is the stable ascending sort, which
`insertionSort` is) and the last seven are returned. -/
def normalize_and_last_7 (t : RawTable) : Except String (List HealthRecord) :=
  if (_colmap t.columns).date = "" then .error ("CSVに日付列が見つかりません。")
  else .ok (lastN 7 ((recordsOf t).insertionSort dateLe))

/-! ### Dashboard rendering

`build_yaml_dashboard` (app.py lines 201-250).  Python `round` rounds
half to even; on the exact rationals of the model this is exact
half-even rounding (on floats the tie behaviour depends on the binary
representation, which no claim exercises).  `statistics.mean` computes
the exact mean before converting; the model keeps it exact.  `_round1`
is kept as an integer count of tenths together with its one-decimal
rendering, which is how Python prints such a float.  A raised exception
is modelled with `Except.error`. -/

/-- fracMean is `statistics.mean` of a list known to be nonempty. -/
def fracMean (l : List Frac) (h : l ≠ []) : Frac :=
  (l.foldl Frac.add (Frac.ofInt 0)).divPos l.length (List.length_pos.mpr h)

/-- avgRound0 is `_round0(st.mean(vals)) if vals else None`. -/
def avgRound0 (l : List Frac) : Option Int :=
  if h : l = [] then Option.none else some (fracMean l h).roundHalfEven

/-- avgRound1 is `_round1(st.mean(vals)) if vals else None`, in tenths. -/
def avgRound1 (l : List Frac) : Option Int :=
  if h : l = [] then Option.none else some (fracMean l h).mulTen.roundHalfEven

/-- fmtOptInt renders what Python prints for `_round0(x)`: None or an int. -/
def fmtOptInt : Option Int → String
  | Option.none => "None"
  | some n => toString n

/-- fmtTenths renders a float with one decimal digit from its tenths count,
as Python prints the result of `round(x, 1)`. -/
def fmtTenths : Option Int → String
  | Option.none => "None"
  | some t =>
    (if t < 0 then "-" else "") ++ toString (t.natAbs / 10) ++ "." ++ toString (t.natAbs % 10)

def _round0 (x : Option Frac) : Option Int := x.map Frac.roundHalfEven

def _round1 (x : Option Frac) : Option Int := x.map (fun q => q.mulTen.roundHalfEven)

def pad2 (n : Nat) : String := if n < 10 then "0" ++ toString n else toString n

def pad4 (n : Nat) : String :=
  if n < 10 then "000" ++ toString n
  else if n < 100 then "00" ++ toString n
  else if n < 1000 then "0" ++ toString n
  else toString n

/-- isoOfKey renders the encoded date back as the ISO string
`date.isoformat()` stored in the record dict. -/
def isoOfKey (k : Nat) : String :=
  pad4 (k / 10000) ++ "-" ++ pad2 (k / 100 % 100) ++ "-" ++ pad2 (k % 100)

/-- fmt_day is the inner `fmt_day` of `build_yaml_dashboard` (app.py lines
223-228). -/
def fmt_day (d : HealthRecord) : String :=
  "    - " ++ "\x7b" ++ "日付: " ++ isoOfKey d.date ++ ", 歩数: " ++
    fmtOptInt (_round0 d.steps) ++ ", 睡眠_h: " ++ fmtTenths (_round1 d.sleep_hours) ++
    ", 活動_kcal: " ++ fmtOptInt (_round0 d.active_energy_kcal) ++ ", 体重_kg: " ++
    fmtTenths (_round1 d.weight_kg) ++ "\x7d"

def stepVals (rows : List HealthRecord) : List Frac := rows.filterMap (fun r => r.steps)

def sleepVals (rows : List HealthRecord) : List Frac :=
  rows.filterMap (fun r => r.sleep_hours)

def activeVals (rows : List HealthRecord) : List Frac :=
  rows.filterMap (fun r => r.active_energy_kcal)

def weightVals (rows : List HealthRecord) : List Frac :=
  rows.filterMap (fun r => r.weight_kg)

/-- dashboardFlags evaluates the alert flags (app.py lines 214-221).
`latest.get("steps", 0)` finds the key "steps" always present in the record
dict (normalize stores None in it when the value is missing), so the default
0 is dead and `None < 5000` raises TypeError, modelled as an error. -/
def dashboardFlags (rows : List HealthRecord) (latest : HealthRecord) :
    Except String (List String) :=
  match latest.steps with
  | Option.none =>
    .error ("TypeError: not supported between instances of NoneType and int")
  | some sv =>
    let f1 : List String :=
      if Frac.lt sv (Frac.ofInt 5000) then ["今日の歩数が少なめ→途中経過の可能性または活動不足"]
      else []
    let short := rows.filter (fun d =>
      match d.sleep_hours with
      | some v => decide (Frac.lt v (Frac.ofInt 6))
      | Option.none => false)
    let f2 : List String :=
      if short ≠ [] then
        ["睡眠6h未満の日あり（" ++ toString short.length ++ "日）→回復重視を推奨"]
      else []
    let f3 : List String :=
      match latest.resting_hr_bpm with
      | some v =>
        if v.num ≠ 0 && decide (Frac.le (Frac.ofInt 75) v) then
          ["安静時心拍がやや高め→睡眠/ストレス/水分を確認"]
        else []
      | Option.none => []
    .ok (f1 ++ f2 ++ f3)

/-- dashboardBody is the body of `build_yaml_dashboard` once the sorted
record list is known to be `r0 :: rs` (so `rows[-1]` exists). -/
def dashboardBody (r0 : HealthRecord) (rs : List HealthRecord) :
    Except String (List String) :=
  match dashboardFlags (r0 :: rs) ((r0 :: rs).getLast (List.cons_ne_nil r0 rs)) with
  | .error e => .error e
  | .ok flags =>
    .ok (["日付: " ++ isoOfKey ((r0 :: rs).getLast (List.cons_ne_nil r0 rs)).date,
          "最新値:",
          "  体重_kg: " ++
            fmtTenths (_round1 ((r0 :: rs).getLast (List.cons_ne_nil r0 rs)).weight_kg),
          "  睡眠_h: " ++
            fmtTenths (_round1 ((r0 :: rs).getLast (List.cons_ne_nil r0 rs)).sleep_hours),
          "  歩数: " ++
            fmtOptInt (_round0 ((r0 :: rs).getLast (List.cons_ne_nil r0 rs)).steps),
          "  活動エネルギー_kcal: " ++
            fmtOptInt (_round0
              ((r0 :: rs).getLast (List.cons_ne_nil r0 rs)).active_energy_kcal),
          "  安静時心拍_bpm: " ++
            fmtTenths (_round1
              ((r0 :: rs).getLast (List.cons_ne_nil r0 rs)).resting_hr_bpm),
          "週平均:",
          "  歩数: " ++ fmtOptInt (avgRound0 (stepVals (r0 :: rs))),
          "  睡眠_h: " ++ fmtTenths (avgRound1 (sleepVals (r0 :: rs))),
          "  活動_kcal: " ++ fmtOptInt (avgRound0 (activeVals (r0 :: rs))),
          "  体重_kg: " ++ fmtTenths (avgRound1 (weightVals (r0 :: rs))),
          "週次サマリ:",
          "  期間: " ++ isoOfKey r0.date ++ "〜" ++
            isoOfKey ((r0 :: rs).getLast (List.cons_ne_nil r0 rs)).date,
          "  日別一覧:"] ++
         (r0 :: rs).map fmt_day ++
         (if flags ≠ [] then "注意点:" :: flags.map (fun f => "  - " ++ f) else []))

/-- dashboardLines builds the list `y` of `build_yaml_dashboard` (app.py
lines 201-250) before the final join; an empty record list raises IndexError
at `rows[-1]`. -/
def dashboardLines (rows0 : List HealthRecord) : Except String (List String) :=
  match rows0.insertionSort dateLe with
  | [] => .error ("IndexError: list index out of range")
  | r0 :: rs => dashboardBody r0 rs

/-- Embedding of `build_yaml_dashboard`: the joined text. -/
def build_yaml_dashboard (rows : List HealthRecord) : Except String String :=
  (dashboardLines rows).map (fun ls => String.intercalate "\n" ls)

/-! ### The force-today decoration

`text.replace(old, new)` in Python (app.py lines 301-307 and 332-338)
replaces every non-overlapping occurrence of old, scanning left to
right.  `repAllF` carries fuel so the recursion is structural; each
step consumes at least one character of the text, so fuel equal to the
length of the text suffices and `repAll` supplies exactly that. -/

def repAllF (old new : List Char) : Nat → List Char → List Char
  | 0, s => s
  | _ + 1, [] => []
  | fuel + 1, c :: t =>
    match chop old (c :: t) with
    | some rest =>
      if old = [] then c :: repAllF old new fuel t else new ++ repAllF old new fuel rest
    | Option.none => c :: repAllF old new fuel t

def repAll (old new s : List Char) : List Char := repAllF old new s.length s

/-- pyReplace models Python `s.replace(old, new)` for a nonempty old. -/
def pyReplace (s old new : String) : String := String.mk (repAll old.data new.data s.data)

/-- cntOccF counts the non-overlapping occurrences the same scan visits. -/
def cntOccF (old : List Char) : Nat → List Char → Nat
  | 0, _ => 0
  | _ + 1, [] => 0
  | fuel + 1, c :: t =>
    match chop old (c :: t) with
    | some rest => if old = [] then cntOccF old fuel t else 1 + cntOccF old fuel rest
    | Option.none => cntOccF old fuel t

def cntOcc (old s : List Char) : Nat := cntOccF old s.length s

/-- hdrOld latest is the header date string the route looks for,
`f"日付: \x7brows[-1]['date']\x7d"`. -/
def hdrOld (latest : String) : List Char := ("日付: " ++ latest).data

/-- hdrNew today is the replacement `f"日付: \x7btoday_local\x7d（途中経過）"`. -/
def hdrNew (today : String) : List Char := ("日付: " ++ today ++ "（途中経過）").data

/-- forceTodayRewrite is the decoration of `daily_dashboard` and
`daily_dashboard_json` when the force-today flag is set (app.py lines
301-306 and 332-337). -/
def forceTodayRewrite (text latest today : String) : String :=
  String.mk (repAll (hdrOld latest) (hdrNew today) text.data)

/-! ### The API-key guard and the route status codes

`_auth_ok` (app.py lines 46-47): `request.headers.get` yields None for a
missing header; `None == API_KEY` is False for a configured string key.
The route bodies perform the Drive download and the pipeline; a route is
modelled as a function of the pipeline outcome, which is all the status
logic observes. -/

def _auth_ok (apiKey headerKey : Option String) : Bool :=
  apiKey.isSome && (headerKey == apiKey)

/-- latest_health (app.py lines 273-284): 401 without authorization, else
200 on success and 500 on any pipeline failure. -/
def latest_health (apiKey headerKey : Option String)
    (pipeline : Except String (List HealthRecord)) : Nat :=
  if !_auth_ok apiKey headerKey then 401
  else match pipeline with
    | .ok _ => 200
    | .error _ => 500

/-- daily_dashboard (app.py lines 286-315): same guard around the text
pipeline. -/
def daily_dashboard (apiKey headerKey : Option String)
    (pipeline : Except String String) : Nat :=
  if !_auth_ok apiKey headerKey then 401
  else match pipeline with
    | .ok _ => 200
    | .error _ => 500

/-- daily_dashboard_json (app.py lines 317-344): same guard around the text
pipeline wrapped as JSON. -/
def daily_dashboard_json (apiKey headerKey : Option String)
    (pipeline : Except String String) : Nat :=
  if !_auth_ok apiKey headerKey then 401
  else match pipeline with
    | .ok _ => 200
    | .error _ => 500

/-! ### Concrete inputs used to instantiate the theorems -/

def filesW : List CandidateFile :=
  [{ id := "a", name := "notes.csv", modifiedKey := 999 },
   { id := "b", name := "export_2025-08-25.csv", modifiedKey := 0 }]

def colsW : List String := ["Date", "Step Count", "Sleep Duration (hr)", "体重"]

def tW : RawTable :=
  { columns := ["Date", "Steps"]
    rows := [[("Date", Value.str ("2025-08-25")), ("Steps", Value.num (Frac.ofInt 6000))],
             [("Date", Value.str ("2025-08-24")), ("Steps", Value.str ("abc"))]] }

def tE : RawTable :=
  { columns := ["Date"]
    rows := [[("Date", Value.str ("oops"))]] }

def rows1 : List HealthRecord :=
  [{ date := 20250825, steps := some (Frac.ofInt 6000), sleep_hours := Option.none,
     active_energy_kcal := Option.none, resting_hr_bpm := Option.none,
     weight_kg := Option.none }]

def rowsNull : List HealthRecord :=
  [{ date := 20250825, steps := Option.none, sleep_hours := Option.none,
     active_energy_kcal := Option.none, resting_hr_bpm := Option.none,
     weight_kg := Option.none }]

/-- lsW is the line list the renderer produces for rows1. -/
def lsW : List String :=
  ["日付: 2025-08-25", "最新値:", "  体重_kg: None", "  睡眠_h: None", "  歩数: 6000",
   "  活動エネルギー_kcal: None", "  安静時心拍_bpm: None", "週平均:", "  歩数: 6000",
   "  睡眠_h: None", "  活動_kcal: None", "  体重_kg: None", "週次サマリ:",
   "  期間: 2025-08-25〜2025-08-25", "  日別一覧:",
   "    - \x7b日付: 2025-08-25, 歩数: 6000, 睡眠_h: None, 活動_kcal: None, 体重_kg: None\x7d"]

/-- textW is the dashboard text the renderer produces for rows1. -/
def textW : String :=
  "日付: 2025-08-25\n最新値:\n  体重_kg: None\n  睡眠_h: None\n  歩数: 6000\n  活動エネルギー_kcal: None\n  安静時心拍_bpm: None\n週平均:\n  歩数: 6000\n  睡眠_h: None\n  活動_kcal: None\n  体重_kg: None\n週次サマリ:\n  期間: 2025-08-25〜2025-08-25\n  日別一覧:\n    - \x7b日付: 2025-08-25, 歩数: 6000, 睡眠_h: None, 活動_kcal: None, 体重_kg: None\x7d"

/-! ## Theorems -/

/-! ### C1: the latest-file selector prefers name-dated files -/

theorem matchDateAt_year {l : List Char} {y m d : Nat}
    (h : matchDateAt l = some (y, m, d)) : 2000 ≤ y := by
  match l with
  | [] => simp [matchDateAt] at h
  | [c1] => simp [matchDateAt] at h
  | [c1, c2] => simp [matchDateAt] at h
  | [c1, c2, a] => simp [matchDateAt] at h
  | c1 :: c2 :: a :: b :: rest =>
    simp only [matchDateAt] at h
    split at h
    · split at h
      · exact absurd h (by simp)
      · split at h
        · exact absurd h (by simp)
        · simp only [Option.some.injEq, Prod.mk.injEq] at h
          omega
    · exact absurd h (by simp)

theorem searchDate_year {l : List Char} {y m d : Nat}
    (h : searchDateInName l = some (y, m, d)) : 2000 ≤ y := by
  induction l with
  | nil => simp [searchDateInName] at h
  | cons c rest ih =>
    rw [searchDateInName] at h
    cases hm : matchDateAt (c :: rest) with
    | some r =>
      rw [hm] at h
      have : r = (y, m, d) := by simpa using h
      exact matchDateAt_year (this ▸ hm)
    | none => rw [hm] at h; exact ih h

theorem parse_date_lb (s : String) :
    _parse_date_from_name s = dateMinKey ∨ 20000000 ≤ _parse_date_from_name s := by
  unfold _parse_date_from_name
  cases hs : searchDateInName s.data with
  | none => left; rfl
  | some t =>
    obtain ⟨y, m, d⟩ := t
    cases hv : validDate y m d
    · left; simp [hv]
    · right
      have := searchDate_year hs
      simp only [hv, if_true, encodeDate]
      omega

theorem pairLe_fst {a b : Nat × Nat} (h : pairLe a b = true) : a.1 ≤ b.1 := by
  unfold pairLe at h
  simp only [Bool.or_eq_true, Bool.and_eq_true, decide_eq_true_eq] at h
  omega

/-- C1: for every candidate list holding at least one file whose name embeds
a valid calendar date, `select_latest` returns a file whose name embeds a
valid date, whatever the modification timestamps are; and a name without a
valid embedded date is keyed with the minimum representable date. -/
theorem select_latest_returns_dated (files : List CandidateFile)
    (h : ∃ f ∈ files, _parse_date_from_name f.name ≠ dateMinKey) :
    (∃ g, select_latest files = Except.ok g ∧ g ∈ files ∧
      _parse_date_from_name g.name ≠ dateMinKey) ∧
    ∀ s : String,
      (∀ y m d, searchDateInName s.data = some (y, m, d) → validDate y m d = false) →
      _parse_date_from_name s = dateMinKey := by
  constructor
  · obtain ⟨f, hf, hdated⟩ := h
    cases hs : files.insertionSort fileDesc with
    | nil =>
      exfalso
      have hperm := List.perm_insertionSort fileDesc files
      rw [hs] at hperm
      rw [hperm.symm.eq_nil] at hf
      exact absurd hf (List.not_mem_nil f)
    | cons g tail =>
      have hperm := List.perm_insertionSort fileDesc files
      refine ⟨g, ?_, ?_, ?_⟩
      · simp [select_latest, hs]
      · exact hperm.mem_iff.mp (by rw [hs]; exact List.mem_cons_self g tail)
      · have hsorted := List.sorted_insertionSort fileDesc files
        rw [hs] at hsorted
        have hfmem : f ∈ files.insertionSort fileDesc := hperm.mem_iff.mpr hf
        rw [hs] at hfmem
        rcases List.mem_cons.mp hfmem with rfl | hftail
        · exact hdated
        · have hle : fileDesc g f := (List.pairwise_cons.mp hsorted).1 f hftail
          have h1 : (sort_key f).1 ≤ (sort_key g).1 := pairLe_fst hle
          have hsf : (sort_key f).1 = _parse_date_from_name f.name := rfl
          have hsg : (sort_key g).1 = _parse_date_from_name g.name := rfl
          have hmin : dateMinKey = 10101 := by decide
          rcases parse_date_lb f.name with hfmin | hfbig
          · exact absurd hfmin hdated
          · rcases parse_date_lb g.name with hgmin | hgbig
            · exfalso; omega
            · intro hc; omega
  · intro s hval
    unfold _parse_date_from_name
    cases hs : searchDateInName s.data with
    | none => rfl
    | some t =>
      obtain ⟨y, m, d⟩ := t
      simp [hval y m d hs]

/-- C1 witness: a dated file beats an undated file with a later timestamp. -/
theorem select_latest_returns_dated_w :
    (∃ f ∈ filesW, _parse_date_from_name f.name ≠ dateMinKey) ∧
    ((∃ g, select_latest filesW = Except.ok g ∧ g ∈ filesW ∧
       _parse_date_from_name g.name ≠ dateMinKey) ∧
     ∀ s : String,
       (∀ y m d, searchDateInName s.data = some (y, m, d) → validDate y m d = false) →
       _parse_date_from_name s = dateMinKey) := by
  have hx : ∃ f ∈ filesW, _parse_date_from_name f.name ≠ dateMinKey :=
    ⟨{ id := "b", name := "export_2025-08-25.csv", modifiedKey := 0 }, by decide, by decide⟩
  exact ⟨hx, select_latest_returns_dated filesW hx⟩

/-! ### C2: the exact case-insensitive pass beats substring containment -/

theorem mem_dictInsert {m : List (String × String)} {k v : String} {p : String × String}
    (hp : p ∈ dictInsert m k v) : p ∈ m ∨ p = (k, v) := by
  induction m with
  | nil => right; simpa [dictInsert] using hp
  | cons q rest ih =>
    obtain ⟨k0, v0⟩ := q
    simp only [dictInsert] at hp
    split at hp
    · rename_i hk
      rcases List.mem_cons.mp hp with rfl | h2
      · right; rw [hk]
      · left; exact List.mem_cons_of_mem _ h2
    · rcases List.mem_cons.mp hp with rfl | h2
      · left; exact List.mem_cons_self _ _
      · rcases ih h2 with h3 | h3
        · left; exact List.mem_cons_of_mem _ h3
        · right; exact h3

theorem foldl_dictInsert_key (cols : List String) :
    ∀ m : List (String × String), (∀ q ∈ m, q.1 = lowerStr q.2) →
      ∀ q ∈ cols.foldl (fun m c => dictInsert m (lowerStr c) c) m, q.1 = lowerStr q.2 := by
  induction cols with
  | nil => intro m hm q hq; exact hm q hq
  | cons c rest ih =>
    intro m hm q hq
    simp only [List.foldl_cons] at hq
    refine ih (dictInsert m (lowerStr c) c) ?_ q hq
    intro r hr
    rcases mem_dictInsert hr with h1 | h1
    · exact hm r h1
    · rw [h1]

theorem lowerMapOf_key {cols : List String} {p : String × String}
    (hp : p ∈ lowerMapOf cols) : p.1 = lowerStr p.2 :=
  foldl_dictInsert_key cols [] (by simp) p hp

theorem findSome?_of_find? {lm : List (String × String)} {cands : List String} {k : String}
    (h : cands.find? (fun a => (dictFind? lm a).isSome) = some k) :
    ∃ c, dictFind? lm k = some c ∧ cands.findSome? (fun a => dictFind? lm a) = some c := by
  induction cands with
  | nil => exact absurd h (by simp)
  | cons a rest ih =>
    by_cases hsome : (dictFind? lm a).isSome
    · rw [List.find?_cons_of_pos _ (by simpa using hsome)] at h
      have hk : a = k := by simpa using h
      subst hk
      obtain ⟨c, hc⟩ := Option.isSome_iff_exists.mp hsome
      exact ⟨c, hc, by rw [List.findSome?_cons, hc]⟩
    · rw [List.find?_cons_of_neg _ (by simpa using hsome)] at h
      obtain ⟨c, hc1, hc2⟩ := ih h
      refine ⟨c, hc1, ?_⟩
      rw [List.findSome?_cons, Option.not_isSome_iff_eq_none.mp hsome]
      exact hc2

theorem dictFind?_mem {lm : List (String × String)} {k c : String}
    (h : dictFind? lm k = some c) : ∃ p ∈ lm, p.1 = k ∧ p.2 = c := by
  unfold dictFind? at h
  cases hf : lm.find? (fun p => p.1 = k) with
  | none => rw [hf] at h; exact absurd h (by simp)
  | some q =>
    rw [hf] at h
    replace h : q.2 = c := by simpa using h
    have hq := @List.find?_some _ (fun p => decide (p.1 = k)) q lm hf
    replace hq : q.1 = k := by simpa using hq
    exact ⟨q, List.mem_of_find?_eq_some hf, hq, h⟩

/-- C2: whenever some alias of the list matches a column exactly
(case-insensitively), `pick` answers from the exact pass: it returns the
stored column of the first such alias, a column whose lowercasing is that
alias — so columns that merely contain an alias as a substring cannot win
against it. -/
theorem pick_exact_alias_wins (columns cands : List String) (k : String)
    (h : cands.find? (fun a => (dictFind? (lowerMapOf columns) a).isSome) = some k) :
    ∃ c, dictFind? (lowerMapOf columns) k = some c ∧
      pick (lowerMapOf columns) cands = c ∧ lowerStr c = k := by
  obtain ⟨c, hc, hfs⟩ := findSome?_of_find? h
  refine ⟨c, hc, ?_, ?_⟩
  · unfold pick
    rw [hfs]
  · obtain ⟨p, hpmem, hp1, hp2⟩ := dictFind?_mem hc
    have hkey := lowerMapOf_key hpmem
    rw [hp1, hp2] at hkey
    exact hkey.symm

/-- C2 witness: with columns "Step Count" (a substring match for the later
alias "step") and "STEPS" (an exact match for the first alias "steps"), the
exact match wins. -/
theorem pick_exact_alias_wins_w :
    (["steps", "step", "step_count"].find?
       (fun a => (dictFind? (lowerMapOf ["Step Count", "STEPS"]) a).isSome) = some ("steps")) ∧
    ∃ c, dictFind? (lowerMapOf ["Step Count", "STEPS"]) ("steps") = some c ∧
      pick (lowerMapOf ["Step Count", "STEPS"]) ["steps", "step", "step_count"] = c ∧
      lowerStr c = "steps" :=
  ⟨by decide,
   pick_exact_alias_wins ["Step Count", "STEPS"] ["steps", "step", "step_count"]
     ("steps") (by decide)⟩

/-! ### C3: the bilingual scenario fails on this code revision -/

/-- C3 counterexample: on the table of the scenario, the Japanese weight
column and the sleep column resolve to no source column at all, refuting the
claim that all four metrics are resolved. -/
theorem colmap_scenario_cex :
    (_colmap colsW).weight_kg = "" ∧ (_colmap colsW).sleep_hours = "" := by
  constructor <;> rfl

/-- C3 amended: on the scenario table, resolution maps the date and steps
columns ("Date" exactly, "Step Count" through the substring pass on
"step"), while the sleep and localized weight columns stay unmapped: the
alias lists of `_colmap` carry no "体重" entry and no alias occurring inside
"sleep duration (hr)". -/
theorem colmap_scenario_amended :
    _colmap colsW =
      { date := "Date", steps := "Step Count", sleep_hours := "",
        active_energy_kcal := "", resting_hr_bpm := "", weight_kg := "" } := by
  rfl

/-! ### C7: value coercion is total -/

theorem pyFloat?_blank {s : String} (h : pyStrip s = "") : pyFloat? s = Option.none := by
  unfold pyFloat?
  rw [h]
  rfl

/-- C7: `_to_float` is a total function (the embedding is a Lean function,
and the exception branch of the source is the null result): None, NaN,
blank or whitespace-only strings and non-numeric strings all map to null,
numbers pass through unchanged, and numeric strings map to their value. -/
theorem to_float_spec :
    (_to_float Value.none = Option.none) ∧
    (_to_float Value.nan = Option.none) ∧
    (∀ s : String, pyStrip s = "" → _to_float (Value.str s) = Option.none) ∧
    (∀ s : String, pyFloat? s = Option.none → _to_float (Value.str s) = Option.none) ∧
    (∀ q : Frac, _to_float (Value.num q) = some q) ∧
    (∀ (s : String) (q : Frac), pyFloat? s = some q → _to_float (Value.str s) = some q) := by
  refine ⟨rfl, rfl, ?_, ?_, fun q => rfl, ?_⟩
  · intro s h
    show (if pyStrip s = "" then Option.none else pyFloat? s) = Option.none
    rw [if_pos h]
  · intro s h
    show (if pyStrip s = "" then Option.none else pyFloat? s) = Option.none
    split
    · rfl
    · exact h
  · intro s q h
    show (if pyStrip s = "" then Option.none else pyFloat? s) = some q
    split
    · rename_i htrim
      rw [pyFloat?_blank htrim] at h
      exact absurd h (by simp)
    · exact h

/-- C7 witness: a whitespace-only and a non-numeric string coerce to null,
a numeric string to its value 3.5. -/
theorem to_float_spec_w :
    (pyStrip ("  ") = "" ∧ _to_float (Value.str ("  ")) = Option.none) ∧
    (pyFloat? ("abc") = Option.none ∧ _to_float (Value.str ("abc")) = Option.none) ∧
    (pyFloat? ("3.5") = some ⟨35, 10, by omega⟩ ∧
      _to_float (Value.str ("3.5")) = some ⟨35, 10, by omega⟩) :=
  ⟨⟨by decide, to_float_spec.2.2.1 ("  ") (by decide)⟩,
   ⟨by decide, to_float_spec.2.2.2.1 ("abc") (by decide)⟩,
   ⟨by decide, to_float_spec.2.2.2.2.2 ("3.5") ⟨35, 10, by omega⟩ (by decide)⟩⟩

/-! ### C4: normalization returns the chronologically last seven, ascending -/

/-- C4: when a date column resolves, the output has min(n, 7) records (all
of them, as a permutation, when n is at most 7), is ascending by date, is
drawn from the parsed records, and every record it drops is no later than
every record it keeps. -/
theorem normalize_last7_spec (t : RawTable) (h : (_colmap t.columns).date ≠ "") :
    ∃ l, normalize_and_last_7 t = Except.ok l ∧
      l.length = min (recordsOf t).length 7 ∧
      List.Sorted (fun a b : Nat => a ≤ b) (l.map HealthRecord.date) ∧
      ((recordsOf t).length ≤ 7 → l.Perm (recordsOf t)) ∧
      (l : Multiset HealthRecord) ≤ (recordsOf t : Multiset HealthRecord) ∧
      ∀ x ∈ ((recordsOf t : Multiset HealthRecord) - (l : Multiset HealthRecord)),
        ∀ y ∈ l, x.date ≤ y.date := by
  set s := (recordsOf t).insertionSort dateLe with hsdef
  have hperm : s.Perm (recordsOf t) := List.perm_insertionSort dateLe (recordsOf t)
  have hsorted : List.Sorted dateLe s := List.sorted_insertionSort dateLe (recordsOf t)
  have hslen : s.length = (recordsOf t).length := hperm.length_eq
  have hok : normalize_and_last_7 t = Except.ok (lastN 7 s) := by
    unfold normalize_and_last_7
    rw [if_neg h, hsdef]
  have hdrop : lastN 7 s = s.drop (s.length - 7) := rfl
  have hsub : (lastN 7 s).Sublist s := by
    rw [hdrop]
    exact List.drop_sublist _ _
  refine ⟨lastN 7 s, hok, ?_, ?_, ?_, ?_, ?_⟩
  · rw [hdrop, List.length_drop]
    omega
  · exact List.pairwise_map.mpr (hsorted.sublist hsub)
  · intro h7
    have hz : s.length - 7 = 0 := by omega
    rw [hdrop, hz, List.drop_zero]
    exact hperm
  · exact Multiset.coe_le.mpr (hsub.subperm.trans hperm.subperm)
  · intro x hx y hy
    have hsplit : s.take (s.length - 7) ++ lastN 7 s = s := by
      rw [hdrop]
      exact List.take_append_drop _ _
    have hpermTL : (s.take (s.length - 7) ++ lastN 7 s).Perm (recordsOf t) := by
      rw [hsplit]
      exact hperm
    have hcoe : (recordsOf t : Multiset HealthRecord) =
        (s.take (s.length - 7) : Multiset HealthRecord) +
          (lastN 7 s : Multiset HealthRecord) := by
      rw [Multiset.coe_add]
      exact (Multiset.coe_eq_coe.mpr hpermTL).symm
    rw [hcoe, add_tsub_cancel_right] at hx
    have hxl : x ∈ s.take (s.length - 7) := Multiset.mem_coe.mp hx
    have hpw : List.Pairwise dateLe (s.take (s.length - 7) ++ lastN 7 s) := by
      rw [hsplit]
      exact hsorted
    exact (List.pairwise_append.mp hpw).2.2 x hxl y hy

/-- C4 witness: the two-row table tW has a resolvable date column and the
theorem instantiates on it. -/
theorem normalize_last7_spec_w :
    ((_colmap tW.columns).date ≠ "") ∧
    ∃ l, normalize_and_last_7 tW = Except.ok l ∧
      l.length = min (recordsOf tW).length 7 ∧
      List.Sorted (fun a b : Nat => a ≤ b) (l.map HealthRecord.date) ∧
      ((recordsOf tW).length ≤ 7 → l.Perm (recordsOf tW)) ∧
      (l : Multiset HealthRecord) ≤ (recordsOf tW : Multiset HealthRecord) ∧
      ∀ x ∈ ((recordsOf tW : Multiset HealthRecord) - (l : Multiset HealthRecord)),
        ∀ y ∈ l, x.date ≤ y.date :=
  ⟨by decide, normalize_last7_spec tW (by decide)⟩

/-! ### C8: normalize fails exactly on a missing date column -/

/-- C8: `normalize_and_last_7` raises MissingColumnError exactly when no
date-like column resolves; with a date column it always succeeds, and it
returns the empty sequence exactly when no row has a parseable date. -/
theorem normalize_missing_column_iff (t : RawTable) :
    (normalize_and_last_7 t = Except.error ("CSVに日付列が見つかりません。") ↔
      (_colmap t.columns).date = "") ∧
    ((_colmap t.columns).date ≠ "" →
      ∃ l, normalize_and_last_7 t = Except.ok l ∧
        (l = [] ↔ ∀ row ∈ t.rows,
          pdToDate (cell row (_colmap t.columns).date) = Option.none)) := by
  constructor
  · constructor
    · intro he
      by_contra hne
      unfold normalize_and_last_7 at he
      rw [if_neg hne] at he
      exact Except.noConfusion he
    · intro hd
      unfold normalize_and_last_7
      rw [if_pos hd]
  · intro hne
    have hok : normalize_and_last_7 t =
        Except.ok (lastN 7 ((recordsOf t).insertionSort dateLe)) := by
      unfold normalize_and_last_7
      rw [if_neg hne]
    have hslen : ((recordsOf t).insertionSort dateLe).length = (recordsOf t).length :=
      (List.perm_insertionSort dateLe (recordsOf t)).length_eq
    have hiff : lastN 7 ((recordsOf t).insertionSort dateLe) = [] ↔ recordsOf t = [] := by
      constructor
      · intro hnil
        have h1 : (lastN 7 ((recordsOf t).insertionSort dateLe)).length = 0 := by
          rw [hnil]
          rfl
        have h2 : (lastN 7 ((recordsOf t).insertionSort dateLe)).length =
            ((recordsOf t).insertionSort dateLe).length -
              (((recordsOf t).insertionSort dateLe).length - 7) := by
          show (((recordsOf t).insertionSort dateLe).drop _).length = _
          exact List.length_drop _ _
        have h3 : (recordsOf t).length = 0 := by omega
        exact List.length_eq_zero.mp h3
      · intro hnil
        rw [hnil]
        rfl
    have hrec : recordsOf t = [] ↔ ∀ row ∈ t.rows,
        pdToDate (cell row (_colmap t.columns).date) = Option.none := by
      constructor
      · intro hnil row hrow
        have hall := List.filterMap_eq_nil_iff.mp (by
          simpa only [recordsOf] using hnil)
        have := hall row hrow
        cases hp : pdToDate (cell row (_colmap t.columns).date) with
        | none => rfl
        | some d =>
          rw [hp] at this
          exact absurd this (by simp)
      · intro hall
        simp only [recordsOf]
        refine List.filterMap_eq_nil_iff.mpr ?_
        intro row hrow
        rw [hall row hrow]
    exact ⟨lastN 7 ((recordsOf t).insertionSort dateLe), hok, hiff.trans hrec⟩

/-- C8 witness: the table tE resolves a date column, and its single
unparseable row yields the empty record list instead of an error. -/
theorem normalize_missing_column_iff_w :
    ((_colmap tE.columns).date ≠ "") ∧
    ∃ l, normalize_and_last_7 tE = Except.ok l ∧
      (l = [] ↔ ∀ row ∈ tE.rows,
        pdToDate (cell row (_colmap tE.columns).date) = Option.none) :=
  ⟨by decide, (normalize_missing_column_iff tE).2 (by decide)⟩

/-! ### C5: a null latest steps value makes the flag evaluation raise -/

/-- C5: on a record list whose latest record has a null steps value, the
renderer does not treat the value as 0 and append the low-activity flag;
`latest.get("steps", 0)` finds the key (normalize always stores it, possibly
as None), so the comparison `None < 5000` raises TypeError. -/
theorem dashboard_null_steps_raises :
    build_yaml_dashboard rowsNull =
      Except.error ("TypeError: not supported between instances of NoneType and int") := by
  rfl

/-! ### C9: the API-key guard fails closed -/

/-- C9: authorization succeeds exactly when a key is configured and the
request header carries that key; with no configured key every request to the
three protected endpoints is answered 401, also when no header is sent. -/
theorem auth_fails_closed :
    (∀ apiKey headerKey : Option String,
      _auth_ok apiKey headerKey = true ↔ ∃ k, apiKey = some k ∧ headerKey = some k) ∧
    (∀ (headerKey : Option String) (p1 : Except String (List HealthRecord))
        (p2 p3 : Except String String),
      latest_health Option.none headerKey p1 = 401 ∧
      daily_dashboard Option.none headerKey p2 = 401 ∧
      daily_dashboard_json Option.none headerKey p3 = 401) := by
  constructor
  · intro apiKey headerKey
    constructor
    · intro h
      unfold _auth_ok at h
      simp only [Bool.and_eq_true] at h
      obtain ⟨h1, h2⟩ := h
      obtain ⟨k, hk⟩ := Option.isSome_iff_exists.mp h1
      exact ⟨k, hk, by rw [eq_of_beq h2, hk]⟩
    · rintro ⟨k, hk1, hk2⟩
      unfold _auth_ok
      rw [hk1, hk2]
      simp
  · intro headerKey p1 p2 p3
    exact ⟨rfl, rfl, rfl⟩

/-! ### C10: the weekly-averages block carries no resting-heart-rate line -/

/-- C10: whenever the renderer succeeds, its output contains the weekly
averages block with exactly four lines — steps, sleep, active energy and
weight — between the block header and the weekly summary header: no average
of resting_hr_bpm is computed or printed. -/
theorem weekly_averages_block (rows : List HealthRecord) (ls : List String)
    (h : dashboardLines rows = Except.ok ls) :
    ∃ pre post, ls = pre ++
      ["週平均:",
       "  歩数: " ++ fmtOptInt (avgRound0 (stepVals (rows.insertionSort dateLe))),
       "  睡眠_h: " ++ fmtTenths (avgRound1 (sleepVals (rows.insertionSort dateLe))),
       "  活動_kcal: " ++ fmtOptInt (avgRound0 (activeVals (rows.insertionSort dateLe))),
       "  体重_kg: " ++ fmtTenths (avgRound1 (weightVals (rows.insertionSort dateLe))),
       "週次サマリ:"] ++ post := by
  unfold dashboardLines at h
  cases hs : rows.insertionSort dateLe with
  | nil =>
    rw [hs] at h
    exact absurd h (by simp)
  | cons r0 rs =>
    rw [hs] at h
    replace h : dashboardBody r0 rs = Except.ok ls := h
    unfold dashboardBody at h
    cases hfl : dashboardFlags (r0 :: rs) ((r0 :: rs).getLast (List.cons_ne_nil r0 rs)) with
    | error e =>
      rw [hfl] at h
      exact absurd h (by simp)
    | ok flags =>
      rw [hfl] at h
      replace h := (Except.ok.inj h).symm
      subst h
      exact ⟨["日付: " ++ isoOfKey ((r0 :: rs).getLast (List.cons_ne_nil r0 rs)).date,
              "最新値:",
              "  体重_kg: " ++
                fmtTenths (_round1 ((r0 :: rs).getLast (List.cons_ne_nil r0 rs)).weight_kg),
              "  睡眠_h: " ++
                fmtTenths (_round1 ((r0 :: rs).getLast (List.cons_ne_nil r0 rs)).sleep_hours),
              "  歩数: " ++
                fmtOptInt (_round0 ((r0 :: rs).getLast (List.cons_ne_nil r0 rs)).steps),
              "  活動エネルギー_kcal: " ++
                fmtOptInt (_round0
                  ((r0 :: rs).getLast (List.cons_ne_nil r0 rs)).active_energy_kcal),
              "  安静時心拍_bpm: " ++
                fmtTenths (_round1
                  ((r0 :: rs).getLast (List.cons_ne_nil r0 rs)).resting_hr_bpm)],
             ["  期間: " ++ isoOfKey r0.date ++ "〜" ++
                isoOfKey ((r0 :: rs).getLast (List.cons_ne_nil r0 rs)).date,
              "  日別一覧:"] ++
             (r0 :: rs).map fmt_day ++
             (if flags ≠ [] then "注意点:" :: flags.map (fun f => "  - " ++ f) else []),
             rfl⟩

/-- C10 witness: the concrete record list rows1 renders with the four-line
weekly block and no resting-heart-rate average. -/
theorem weekly_averages_block_w :
    dashboardLines rows1 = Except.ok lsW ∧
    ∃ pre post, lsW = pre ++
      ["週平均:",
       "  歩数: " ++ fmtOptInt (avgRound0 (stepVals (rows1.insertionSort dateLe))),
       "  睡眠_h: " ++ fmtTenths (avgRound1 (sleepVals (rows1.insertionSort dateLe))),
       "  活動_kcal: " ++ fmtOptInt (avgRound0 (activeVals (rows1.insertionSort dateLe))),
       "  体重_kg: " ++ fmtTenths (avgRound1 (weightVals (rows1.insertionSort dateLe))),
       "週次サマリ:"] ++ post :=
  ⟨by rfl, weekly_averages_block rows1 lsW (by rfl)⟩

/-! ### C6: the decoration replaces every occurrence, not only the first -/

theorem chop_eq_some : ∀ {p s r : List Char}, chop p s = some r ↔ s = p ++ r := by
  intro p
  induction p with
  | nil => intro s r; simp [chop]
  | cons a ps ih =>
    intro s r
    cases s with
    | nil =>
      simp [chop]
    | cons b ss =>
      simp only [chop]
      split
      · rename_i hab
        rw [ih]
        subst hab
        simp
      · rename_i hab
        constructor
        · intro hx
          exact absurd hx (by simp)
        · intro hx
          injection hx with hx1 hx2
          exact absurd hx1.symm hab

theorem isPre_iff {p s : List Char} : isPre p s = true ↔ ∃ r, s = p ++ r := by
  unfold isPre
  constructor
  · intro h
    obtain ⟨r, hr⟩ := Option.isSome_iff_exists.mp h
    exact ⟨r, chop_eq_some.mp hr⟩
  · rintro ⟨r, hr⟩
    rw [chop_eq_some.mpr hr]
    rfl

theorem isPre_cons {a b : Char} {as bs : List Char} :
    isPre (a :: as) (b :: bs) = true ↔ a = b ∧ isPre as bs = true := by
  unfold isPre
  simp only [chop]
  split
  · rename_i hab
    simp [hab]
  · rename_i hab
    simp [hab]

theorem isPre_nil_left {s : List Char} : isPre [] s = true := rfl

theorem isPre_nil_right {p : List Char} (h : p ≠ []) : isPre p [] = false := by
  cases p with
  | nil => exact absurd rfl h
  | cons a ps => rfl

theorem hasSub_iff {p : List Char} : ∀ {s : List Char},
    hasSub p s = true ↔ ∃ a b, s = a ++ p ++ b := by
  intro s
  induction s with
  | nil =>
    show isPre p [] = true ↔ _
    rw [isPre_iff]
    constructor
    · rintro ⟨r, hr⟩
      exact ⟨[], r, by simpa using hr⟩
    · rintro ⟨a, b, hab⟩
      have hx := hab.symm
      simp only [List.append_eq_nil, List.append_assoc] at hx
      obtain ⟨ha, hp, hb⟩ := hx
      exact ⟨b, by simp [hp, hb]⟩
  | cons c t ih =>
    simp only [hasSub, Bool.or_eq_true]
    constructor
    · rintro (h | h)
      · obtain ⟨r, hr⟩ := isPre_iff.mp h
        exact ⟨[], r, by simpa using hr⟩
      · obtain ⟨a, b, hab⟩ := ih.mp h
        exact ⟨c :: a, b, by simp [hab]⟩
    · rintro ⟨a, b, hab⟩
      cases a with
      | nil =>
        left
        exact isPre_iff.mpr ⟨b, by simpa using hab⟩
      | cons a0 as =>
        right
        rw [List.cons_append, List.cons_append] at hab
        injection hab with h1 h2
        exact ih.mpr ⟨as, b, h2⟩

/-- repAll_sufpre: a nonempty proper trailing piece of the pattern that
leads the rewritten text already leads the original text (given that no
leading piece of the replacement equals such a trailing piece). -/
theorem repAll_sufpre (p n : List Char) (h1 : p ≠ []) (h5 : p.length < n.length)
    (h3 : ∀ k, k < p.length → 1 ≤ k → n.take k ≠ p.drop (p.length - k)) :
    ∀ fuel s, s.length ≤ fuel → ∀ k, 1 ≤ k → k < p.length →
      isPre (p.drop (p.length - k)) (repAllF p n fuel s) = true →
      isPre (p.drop (p.length - k)) s = true := by
  intro fuel
  induction fuel with
  | zero =>
    intro s hs k hk1 hk2 hpre
    exact hpre
  | succ fuel ih =>
    intro s hs k hk1 hk2 hpre
    cases s with
    | nil => exact hpre
    | cons c t =>
      have hts : t.length ≤ fuel := by
        simp only [List.length_cons] at hs
        omega
      cases hc : chop p (c :: t) with
      | some rest =>
        have hred : repAllF p n (fuel + 1) (c :: t) = n ++ repAllF p n fuel rest := by
          simp only [repAllF, hc, if_neg h1]
        rw [hred] at hpre
        exfalso
        have hvlen : (p.drop (p.length - k)).length = k := by
          rw [List.length_drop]
          omega
        obtain ⟨r, hr⟩ := isPre_iff.mp hpre
        rcases List.append_eq_append_iff.mp hr.symm with ⟨m, hm1, _⟩ | ⟨m, hm1, _⟩
        · exact h3 k hk2 hk1 (by rw [hm1]; exact List.take_left' hvlen)
        · have hlen := congrArg List.length hm1
          rw [hvlen, List.length_append] at hlen
          omega
      | none =>
        have hred : repAllF p n (fuel + 1) (c :: t) = c :: repAllF p n fuel t := by
          simp only [repAllF, hc]
        rw [hred] at hpre
        have hvlen : (p.drop (p.length - k)).length = k := by
          rw [List.length_drop]
          omega
        cases hv : p.drop (p.length - k) with
        | nil =>
          rw [hv] at hvlen
          simp at hvlen
          omega
        | cons v0 v2 =>
          rw [hv] at hpre
          obtain ⟨hv0, hpre2⟩ := isPre_cons.mp hpre
          refine isPre_cons.mpr ⟨hv0, ?_⟩
          cases v2 with
          | nil => exact isPre_nil_left
          | cons w ws =>
            have e1 : (p.drop (p.length - k)).drop 1 = w :: ws := by
              rw [hv]
              rfl
            have e2 : (p.drop (p.length - k)).drop 1 = p.drop (p.length - (k - 1)) := by
              rw [List.drop_drop]
              congr 1
              omega
            have hv2 : w :: ws = p.drop (p.length - (k - 1)) := by
              rw [← e1, e2]
            have hlen2 : (w :: ws).length = k - 1 := by
              rw [hv2, List.length_drop]
              omega
            have hk1b : 1 ≤ k - 1 := by
              rw [List.length_cons] at hlen2
              omega
            have hkb : k - 1 < p.length := by omega
            have ihres := ih t hts (k - 1) hk1b hkb (by rw [← hv2]; exact hpre2)
            rw [hv2]
            exact ihres

/-- repAll_no_occurrence: the pattern does not occur in the rewritten text,
provided it is shorter than the replacement, does not occur in the
replacement, no trailing piece of the replacement starts the pattern, and no
leading piece of the replacement ends it. -/
theorem repAll_no_occurrence (p n : List Char) (h1 : p ≠ []) (h5 : p.length < n.length)
    (h4 : hasSub p n = false)
    (h2 : ∀ k, k < n.length → 1 ≤ k → k < p.length →
      n.drop (n.length - k) ≠ p.take k)
    (h3 : ∀ k, k < p.length → 1 ≤ k → n.take k ≠ p.drop (p.length - k)) :
    ∀ fuel s, s.length ≤ fuel → hasSub p (repAllF p n fuel s) = false := by
  intro fuel
  induction fuel with
  | zero =>
    intro s hs
    have hnil : s = [] := List.length_eq_zero.mp (by omega)
    subst hnil
    exact isPre_nil_right h1
  | succ fuel ih =>
    intro s hs
    cases s with
    | nil => exact isPre_nil_right h1
    | cons c t =>
      have hts : t.length ≤ fuel := by
        simp only [List.length_cons] at hs
        omega
      cases hc : chop p (c :: t) with
      | some rest =>
        have hrest : c :: t = p ++ rest := chop_eq_some.mp hc
        have hred : repAllF p n (fuel + 1) (c :: t) = n ++ repAllF p n fuel rest := by
          simp only [repAllF, hc, if_neg h1]
        have hplen : 1 ≤ p.length := by
          cases p with
          | nil => exact absurd rfl h1
          | cons _ _ => simp
        have hrlen : rest.length ≤ fuel := by
          have hl := congrArg List.length hrest
          simp only [List.length_cons, List.length_append] at hl
          simp only [List.length_cons] at hs
          omega
        rw [hred]
        by_contra hocc
        rw [Bool.not_eq_false] at hocc
        obtain ⟨a, b, hab⟩ := hasSub_iff.mp hocc
        rw [List.append_assoc] at hab
        rcases List.append_eq_append_iff.mp hab with ⟨m, hm1, hm2⟩ | ⟨m, hm1, hm2⟩
        · have hsubR : hasSub p (repAllF p n fuel rest) = true :=
            hasSub_iff.mpr ⟨m, b, by rw [hm2]; exact (List.append_assoc m p b).symm⟩
          rw [ih rest hrlen] at hsubR
          exact Bool.noConfusion hsubR
        · rcases List.append_eq_append_iff.mp hm2 with ⟨u, hu1, hu2⟩ | ⟨u, hu1, hu2⟩
          · have hsubN : hasSub p n = true :=
              hasSub_iff.mpr ⟨a, u, by rw [hm1, hu1, List.append_assoc]⟩
            rw [h4] at hsubN
            exact Bool.noConfusion hsubN
          · by_cases hu0 : u = []
            · have hpm : p = m := by
                rw [hu1, hu0]
                simp
              have hsubN : hasSub p n = true :=
                hasSub_iff.mpr ⟨a, [], by rw [hm1, ← hpm]; simp⟩
              rw [h4] at hsubN
              exact Bool.noConfusion hsubN
            · by_cases hm0 : m = []
              · have hpu : p = u := by
                  rw [hu1, hm0]
                  simp
                have hsubR : hasSub p (repAllF p n fuel rest) = true :=
                  hasSub_iff.mpr ⟨[], b, by rw [hu2, ← hpu]; simp⟩
                rw [ih rest hrlen] at hsubR
                exact Bool.noConfusion hsubR
              · have hk1 : 1 ≤ m.length := by
                  cases m with
                  | nil => exact absurd rfl hm0
                  | cons _ _ => simp
                have hkp : m.length < p.length := by
                  have hul := congrArg List.length hu1
                  simp only [List.length_append] at hul
                  have hulen : 1 ≤ u.length := by
                    cases u with
                    | nil => exact absurd rfl hu0
                    | cons _ _ => simp
                  omega
                have hkn : m.length < n.length := by omega
                apply h2 m.length hkn hk1 hkp
                have hdropn : n.drop (n.length - m.length) = m := by
                  rw [hm1]
                  have he : (a ++ m).length - m.length = a.length := by
                    simp [List.length_append]
                  rw [he]
                  exact List.drop_left _ _
                have htakep : p.take m.length = m := by
                  rw [hu1]
                  exact List.take_left _ _
                rw [hdropn, htakep]
      | none =>
        have hred : repAllF p n (fuel + 1) (c :: t) = c :: repAllF p n fuel t := by
          simp only [repAllF, hc]
        rw [hred]
        have hX := ih t hts
        show (isPre p (c :: repAllF p n fuel t) || hasSub p (repAllF p n fuel t)) = false
        rw [hX, Bool.or_false]
        by_contra hpre
        rw [Bool.not_eq_false] at hpre
        obtain ⟨p0, p2, hp⟩ : ∃ p0 p2, p = p0 :: p2 := by
          cases p with
          | nil => exact absurd rfl h1
          | cons a b => exact ⟨a, b, rfl⟩
        obtain ⟨r0, hr0⟩ := isPre_iff.mp hpre
        have hsplit0 : p ++ r0 = p0 :: (p2 ++ r0) := by
          rw [hp, List.cons_append]
        replace hr0 := hr0.trans hsplit0
        injection hr0 with hr1 hr2
        have h01 : p0 = c := hr1.symm
        have hpre2 : isPre p2 (repAllF p n fuel t) = true := isPre_iff.mpr ⟨r0, hr2⟩
        cases hq : p2 with
          | nil =>
            have hsome : chop p (c :: t) = some t := by
              rw [hp, hq]
              simp [chop, h01]
            rw [hsome] at hc
            exact Option.noConfusion hc
          | cons w ws =>
            have hp2ne : p2 ≠ [] := by
              rw [hq]
              simp
            have hp2pos : 0 < p2.length := List.length_pos.mpr hp2ne
            have hplen : p.length = p2.length + 1 := by
              rw [hp]
              rfl
            have hk1 : 1 ≤ p.length - 1 := by omega
            have hk2 : p.length - 1 < p.length := by omega
            have hdrop1 : p.drop 1 = p2 := by
              rw [hp]
              simp
            have hpredrop : isPre (p.drop (p.length - (p.length - 1)))
                (repAllF p n fuel t) = true := by
              rw [show p.length - (p.length - 1) = 1 by omega, hdrop1]
              exact hpre2
            have ihA := repAll_sufpre p n h1 h5 h3 fuel t hts (p.length - 1) hk1 hk2 hpredrop
            rw [show p.length - (p.length - 1) = 1 by omega, hdrop1] at ihA
            have hchop2 : chop p (c :: t) = chop p2 t := by
              rw [hp]
              simp [chop, h01]
            obtain ⟨r, hr⟩ := Option.isSome_iff_exists.mp ihA
            rw [hchop2, hr] at hc
            exact Option.noConfusion hc

/-- C6 amended: with the force-today flag set, the decoration rewrites every
left-to-right non-overlapping occurrence of the original header date string,
not only the first: under the stated non-degeneracy conditions on the two
header strings (all of which hold for distinct ISO dates) no occurrence of
the original header date string survives in the decorated text — in
particular the per-day line of the latest date is rewritten too. -/
theorem force_today_rewrites_every_occurrence (text latest today : String)
    (h1 : hdrOld latest ≠ [])
    (h5 : (hdrOld latest).length < (hdrNew today).length)
    (h4 : hasSub (hdrOld latest) (hdrNew today) = false)
    (h2 : ∀ k, k < (hdrNew today).length → 1 ≤ k → k < (hdrOld latest).length →
      (hdrNew today).drop ((hdrNew today).length - k) ≠ (hdrOld latest).take k)
    (h3 : ∀ k, k < (hdrOld latest).length → 1 ≤ k →
      (hdrNew today).take k ≠ (hdrOld latest).drop ((hdrOld latest).length - k)) :
    hasSub (hdrOld latest) (forceTodayRewrite text latest today).data = false := by
  show hasSub (hdrOld latest)
    (repAllF (hdrOld latest) (hdrNew today) text.data.length text.data) = false
  exact repAll_no_occurrence (hdrOld latest) (hdrNew today) h1 h5 h4 h2 h3
    text.data.length text.data (le_refl _)

set_option maxRecDepth 100000 in
/-- C6 witness: on the concrete dashboard text of rows1 with the real dates
2025-08-25 and 2025-08-26, all the side conditions hold and no occurrence of
the old header string survives. -/
theorem force_today_rewrites_every_occurrence_w :
    (hdrOld ("2025-08-25") ≠ []) ∧
    ((hdrOld ("2025-08-25")).length < (hdrNew ("2025-08-26")).length) ∧
    (hasSub (hdrOld ("2025-08-25")) (hdrNew ("2025-08-26")) = false) ∧
    (∀ k, k < (hdrNew ("2025-08-26")).length → 1 ≤ k → k < (hdrOld ("2025-08-25")).length →
      (hdrNew ("2025-08-26")).drop ((hdrNew ("2025-08-26")).length - k) ≠
        (hdrOld ("2025-08-25")).take k) ∧
    (∀ k, k < (hdrOld ("2025-08-25")).length → 1 ≤ k →
      (hdrNew ("2025-08-26")).take k ≠
        (hdrOld ("2025-08-25")).drop ((hdrOld ("2025-08-25")).length - k)) ∧
    hasSub (hdrOld ("2025-08-25"))
      (forceTodayRewrite textW ("2025-08-25") ("2025-08-26")).data = false :=
  ⟨by decide, by decide, by decide, by decide, by decide,
   force_today_rewrites_every_occurrence textW ("2025-08-25") ("2025-08-26")
     (by decide) (by decide) (by decide) (by decide) (by decide)⟩

set_option maxRecDepth 100000 in
/-- C6 counterexample: the renderer output for rows1 contains the header
date string twice (the header line and the per-day line of the latest day),
and the decoration with force-today set leaves zero occurrences — so the
later occurrence is not left unchanged as the claim states. -/
theorem force_today_later_occurrence_cex :
    build_yaml_dashboard rows1 = Except.ok textW ∧
    cntOcc (hdrOld ("2025-08-25")) textW.data = 2 ∧
    cntOcc (hdrOld ("2025-08-25"))
      (forceTodayRewrite textW ("2025-08-25") ("2025-08-26")).data = 0 :=
  ⟨by rfl, by decide, by decide⟩

end HealthApi
